import Mathlib

/-!
Verification of the Git repository URL parser (`src/api.repo.ts`).

Shallow embedding of the `GitRepoParser` module.  Strings are modelled as
`List Char`; the JavaScript regular expressions of the source are modelled as
explicit character scanners with identical semantics on their (ASCII) classes;
the WHATWG `new URL` constructor, a platform builtin used by the source, is
modelled by `parseURL` below, restricted to the
`scheme://[userinfo@]host[:port][/path][?query][#fragment]` shape (it returns
`none` exactly where `new URL` throws for such inputs; it performs WHATWG
dot-segment normalisation of the path and lowercases the host exactly for the
special schemes; percent-encoding, tab/newline stripping and the remaining
corner forms are outside the model and documented at `parseURL`).

The single network call of `parse` (the GitHub visibility lookup) is modelled
by an explicit `FetchOutcome` argument describing the behaviour of that call;
the `authToken` option only ever reaches the request headers, whose effect is
absorbed by that outcome.
-/

/-- Character lists play the role of JavaScript strings. -/
abbrev Str := List Char

/-- JS `\w` class: ASCII letters, digits and underscore. -/
def isWordChar (c : Char) : Bool := c.isAlphanum || c == '_'

/-- The class `[\w-]` (first segment of the shorthand regex, line 64). -/
def isWordHyphen (c : Char) : Bool := isWordChar c || c == '-'

/-- The class `[\w.-]` (second shorthand segment, and `/tree/` refs, lines 64 and 79). -/
def isRepoChar (c : Char) : Bool := isWordChar c || c == '.' || c == '-'

/-- The class `[a-f0-9]` under the `i` flag (line 80): hex digits of either case. -/
def isHexCI (c : Char) : Bool := c.isDigit || ('a' ≤ c && c ≤ 'f') || ('A' ≤ c && c ≤ 'F')

/-- Split at the first occurrence of `sep`, returning the parts before and after;
`none` when `sep` does not occur.  Models first-match scanning of JS string search. -/
def listSplitFirst (sep : Str) : Str → Option (Str × Str)
  | [] => if sep.isEmpty then some ([], []) else none
  | c :: rest =>
    if sep.isPrefixOf (c :: rest) then some ([], (c :: rest).drop sep.length)
    else (listSplitFirst sep rest).map (fun p => (c :: p.1, p.2))

/-- JS `String.prototype.includes`. -/
def containsSubstrL (sep l : Str) : Bool := (listSplitFirst sep l).isSome

/-- The ASCII uppercase letters. -/
def upperAZ : Str :=
  ['A', 'B', 'C', 'D', 'E', 'F', 'G', 'H', 'I', 'J', 'K', 'L', 'M',
   'N', 'O', 'P', 'Q', 'R', 'S', 'T', 'U', 'V', 'W', 'X', 'Y', 'Z']

/-- The ASCII lowercase letters. -/
def lowerAZ : Str :=
  ['a', 'b', 'c', 'd', 'e', 'f', 'g', 'h', 'i', 'j', 'k', 'l', 'm',
   'n', 'o', 'p', 'q', 'r', 's', 't', 'u', 'v', 'w', 'x', 'y', 'z']

/-- ASCII lowercasing of one character (WHATWG reports hostnames lowercased). -/
def lowerChar (c : Char) : Char :=
  match (upperAZ.zip lowerAZ).find? (fun p => p.1 == c) with
  | some p => p.2
  | none => c

/-- Code points the WHATWG URL parser forbids in a host. -/
def forbiddenHostChars : Str :=
  ['\x00', '\t', '\n', '\r', ' ', '#', '/', ':', '<', '>', '?', '@', '[', '\\', ']', '^', '|']

def isForbiddenHostChar (c : Char) : Bool := forbiddenHostChars.contains c

/-- Characters that may appear in the authority part (host section) of a URL. -/
def isAuthorityChar (c : Char) : Bool := !(c == '/') && !(c == '?') && !(c == '#')

/-- Characters belonging to the path (everything up to `?` or `#`). -/
def isPathChar (c : Char) : Bool := !(c == '?') && !(c == '#')

/-- Strip a `userinfo@` prefix from the authority: keep what follows the last `@`. -/
def dropUserinfo (authority : Str) : Str :=
  (authority.reverse.takeWhile (fun c => !(c == '@'))).reverse

/-- A valid URL scheme: a letter followed by letters, digits, `+`, `-` or `.`. -/
def validScheme (s : Str) : Bool :=
  match s with
  | [] => false
  | c :: rest => c.isAlpha && rest.all (fun a => a.isAlphanum || a == '+' || a == '-' || a == '.')

/-- The two fields of the JS `URL` object that the source reads
(`urlObj.hostname`, `urlObj.pathname`). -/
structure URLObj where
  hostname : Str
  pathname : Str
deriving DecidableEq, Repr

/-- Split on a separator character, JS `String.prototype.split('/')`:
`n` separators yield `n+1` (possibly empty) fields. -/
def splitChar (c : Char) : Str → List Str
  | [] => [[]]
  | x :: xs =>
    if x == c then [] :: splitChar c xs
    else
      match splitChar c xs with
      | [] => [[x]]
      | s :: ss => (x :: s) :: ss

/-- Inverse of `splitChar`: interleave the separator between the fields. -/
def joinChar (c : Char) : List Str → Str
  | [] => []
  | [x] => x
  | x :: xs => x ++ c :: joinChar c xs

/-- A single- or double-dot path segment, which the WHATWG path state removes
(the percent-encoded forms `%2e` are outside the model). -/
def isDotSeg (s : Str) : Bool := s == ".".toList || s == "..".toList

/-- WHATWG dot-segment processing over a segment list: `..` pops the previous
segment, `.` is dropped, and a trailing dot segment leaves a trailing empty
segment (a trailing slash); `acc` holds the output segments in reverse. -/
def dotNormAux : List Str → List Str → List Str
  | acc, [] => acc.reverse
  | acc, s :: rest =>
    if s == "..".toList then
      if rest.isEmpty then (([] : Str) :: acc.drop 1).reverse
      else dotNormAux (acc.drop 1) rest
    else if s == ".".toList then
      if rest.isEmpty then (([] : Str) :: acc).reverse
      else dotNormAux acc rest
    else dotNormAux (s :: acc) rest

/-- Dot-segment normalisation of a path that starts with `/` (any other shape is
left alone; the model only ever applies it to such paths). -/
def normalizePath (p : Str) : Str :=
  match p with
  | '/' :: t => '/' :: joinChar '/' (dotNormAux [] (splitChar '/' t))
  | other => other

/-- The `pathname` reported for what follows the authority: up to `?` or `#`,
dot-segments removed, with `/` for an empty path (as `new URL` reports for
special schemes). -/
def mkPathname (afterAuthority : Str) : Str :=
  match afterAuthority.takeWhile isPathChar with
  | [] => ['/']
  | p => normalizePath p

/-- The authority without userinfo: up to the first `/`, `?` or `#`, after the last `@`. -/
def hostportOf (rest : Str) : Str := dropUserinfo (rest.takeWhile isAuthorityChar)

/-- The host: the authority up to an optional `:port`. -/
def hostOf (rest : Str) : Str := (hostportOf rest).takeWhile (fun c => !(c == ':'))

/-- An optional `:port` must be numeric (possibly empty). -/
def portOkOf (rest : Str) : Bool :=
  match (hostportOf rest).dropWhile (fun c => !(c == ':')) with
  | [] => true
  | _ :: ds => ds.all Char.isDigit

/-- The WHATWG special schemes, whose hosts are domains. -/
def specialSchemes : List Str :=
  ["http".toList, "https".toList, "ws".toList, "wss".toList, "ftp".toList, "file".toList]

/-- Schemes are matched case-insensitively. -/
def isSpecialScheme (scheme : Str) : Bool := specialSchemes.contains (scheme.map lowerChar)

/-- Host and path extraction once the `scheme://` prefix is consumed.  A
special-scheme (domain) host is reported ASCII-lowercased; the opaque host of a
non-special scheme keeps its case, as in WHATWG. -/
def parseURLrest (special : Bool) (rest : Str) : Option URLObj :=
  if (hostOf rest).isEmpty then none
  else if (hostOf rest).any isForbiddenHostChar then none
  else if !(portOkOf rest) then none
  else some ⟨if special then (hostOf rest).map lowerChar else hostOf rest,
    mkPathname (rest.dropWhile isAuthorityChar)⟩

/-- Model of the JS `new URL(url)` constructor on absolute URLs written with an
explicit `"://"` separator: `none` models the constructor throwing.  The host is
validated against the WHATWG forbidden-host code points, may carry a `userinfo@`
prefix and a numeric `:port`, and is ASCII-lowercased exactly for the special
schemes; the path runs to the first `?` or `#` with dot-segments removed.  Known
divergences from the builtin, none load-bearing for the claims: the host is
required to be non-empty for every scheme (WHATWG allows an empty opaque host for
non-special schemes); absolute forms without `"://"` such as `http:github.com`
are rejected although `new URL` accepts them (they never reach `new URL` in the
source except in `isValidProvider`, where the source treats a throwing
constructor and a non-matching host alike); percent-encoding and tab/newline
stripping are not modelled. -/
def parseURL (s : Str) : Option URLObj :=
  match listSplitFirst ("://".toList) s with
  | none => none
  | some (scheme, rest) =>
    if validScheme scheme then parseURLrest (isSpecialScheme scheme) rest else none

/-- The shorthand regex `/^[\w-]+\/[\w.-]+$/` (line 64): since both classes
exclude `/`, a string matches exactly when it has a single `/` with both
sides non-empty and class-conforming. -/
def isShorthand (url : Str) : Bool :=
  match splitChar '/' url with
  | [a, b] => !a.isEmpty && a.all isWordHyphen && !b.isEmpty && b.all isRepoChar
  | _ => false

/-- The refinement of `gitUrlSchema` (lines 55-70): accept when the input
contains `"://"` and `new URL` succeeds, otherwise when the shorthand regex
matches; a throwing `new URL` is caught and rejects. -/
def gitUrlSchema (url : Str) : Bool :=
  if containsSubstrL ("://".toList) url then (parseURL url).isSome
  else isShorthand url

/-- First match of `BRANCH_PATTERN = /\/tree\/([\w.-]+)/` (line 79): scan left to
right for `/tree/` followed by at least one `[\w.-]` character; the capture is the
maximal class run (the regex engine moves one position forward when the capture
would be empty, exactly as modelled by the recursion). -/
def findBranch : Str → Option Str
  | [] => none
  | c :: rest =>
    if ("/tree/".toList).isPrefixOf (c :: rest) then
      match ((c :: rest).drop 6).takeWhile isRepoChar with
      | [] => findBranch rest
      | cap => some cap
    else findBranch rest

/-- Case-insensitive prefix test (the `i` flag applied to the literal part). -/
def ciPrefixOf : Str → Str → Bool
  | [], _ => true
  | _ :: _, [] => false
  | x :: xs, y :: ys => lowerChar x == lowerChar y && ciPrefixOf xs ys

/-- First match of `COMMIT_PATTERN = /\/commit\/([a-f0-9]+)/i` (line 80):
the literal and the class are matched case-insensitively, and the capture is
taken verbatim (original case) from the input. -/
def findCommit : Str → Option Str
  | [] => none
  | c :: rest =>
    if ciPrefixOf ("/commit/".toList) (c :: rest) then
      match ((c :: rest).drop 8).takeWhile isHexCI with
      | [] => findCommit rest
      | cap => some cap
    else findCommit rest

/-- The enumeration `GitRepoMetadata['provider']` (line 37). -/
inductive Provider where
  | github
  | gitlab
  | bitbucket
deriving DecidableEq, Repr

/-- Structure `GitRepoMetadata` (lines 32-39).  `isPrivate` is declared `boolean` in the
source but is assigned `data.private` from an unchecked cast, so its runtime
value can be the JS `undefined`; `none` models `undefined`, `some b` a boolean. -/
structure GitRepoMetadata where
  owner : Str
  repo : Str
  branch : Option Str
  commit : Option Str
  provider : Provider
  isPrivate : Option Bool
deriving DecidableEq, Repr

/-- Structure `ParsedGitUrl` (lines 45-49). -/
structure ParsedGitUrl where
  metadata : GitRepoMetadata
  normalizedUrl : Str
  originalUrl : Str
deriving DecidableEq, Repr

/-- Structure `ParseOptions` (lines 51-53). -/
structure ParseOptions where
  authToken : Option Str := none
deriving DecidableEq, Repr

/-- The two fatal failure kinds of `parse`: the zod failure of line 84 and the
throw of line 112. -/
inductive ParseError where
  | invalidFormat
  | missingOwnerOrRepo
deriving DecidableEq, Repr

deriving instance DecidableEq for Except

/-- The body of the visibility response.  `invalid` covers every case where
reading `data.private` throws inside the `try` (non-JSON body, `null` body);
`obj (some b)` a JSON value whose `private` member is the boolean `b`;
`obj none` a JSON value without a boolean `private` member, on which the JS
member read yields `undefined` (non-boolean member values behave the same for
every property this file states and are collapsed onto `obj none`). -/
inductive JsonBody where
  | invalid
  | obj (priv : Option Bool)
deriving DecidableEq, Repr

/-- Behaviour of the single `fetch` of lines 121-141: a rejected promise
(network error), or a response with its `ok` flag and body. -/
inductive FetchOutcome where
  | networkError
  | response (ok : Bool) (body : JsonBody)
deriving DecidableEq, Repr

namespace GitRepoParser

/-- Line 88: shorthand inputs are rewritten to `https://github.com/<input>`. -/
def expandShorthand (url : Str) : Str :=
  if containsSubstrL ("://".toList) url then url else "https://github.com/".toList ++ url

/-- Whether the expanded input's scheme is one of the WHATWG special schemes
(every `https://...` input and every shorthand qualifies). -/
def isSpecialExpand (url : Str) : Bool :=
  match listSplitFirst ("://".toList) (expandShorthand url) with
  | some (scheme, _) => isSpecialScheme scheme
  | none => false

/-- Lines 95-97: `Object.entries(PROVIDER_PATTERNS).find(...)` walks the patterns
in insertion order github, gitlab, bitbucket, each an unanchored substring test
on the hostname, and line 97 defaults to github when none matches. -/
def detectProvider (hostname : Str) : Provider :=
  if containsSubstrL ("github.com".toList) hostname then .github
  else if containsSubstrL ("gitlab.com".toList) hostname then .gitlab
  else if containsSubstrL ("bitbucket.org".toList) hostname then .bitbucket
  else .github

/-- Line 109: `repo?.replace(/\.git$/, '')` removes one trailing `.git`. -/
def stripDotGit (r : Str) : Str :=
  if (".git".toList).isSuffixOf r then r.take (r.length - 4) else r

/-- Lines 92 and 107-113: split the pathname on `/`, discard empty segments,
take the first two as owner and raw repo, strip `.git`, and fail when either
is missing or empty. -/
def extractOwnerRepo (u : URLObj) : Option (Str × Str) :=
  match (splitChar '/' u.pathname).filter (fun s => !s.isEmpty) with
  | owner :: repoRaw :: _ =>
    let cleanRepo := stripDotGit repoRaw
    if owner.isEmpty || cleanRepo.isEmpty then none else some (owner, cleanRepo)
  | _ => none

/-- Lines 119-142: `isPrivate` starts `false`; only a github provider performs the
lookup; a rejected fetch or an unreadable body is swallowed (line 139), a non-ok
response only logs (line 129), and an ok response assigns `data.private` verbatim —
which is `undefined` (`none`) when the body has no boolean `private` member. -/
def resolvePrivate (provider : Provider) (fetchResult : FetchOutcome) : Option Bool :=
  match provider with
  | .github =>
    match fetchResult with
    | .networkError => some false
    | .response ok body =>
      if ok then
        match body with
        | .invalid => some false
        | .obj priv => priv
      else some false
  | _ => some false

/-- Method `GitRepoParser.parse` (lines 82-156).  The zod failure of line 84 and the
(unreachable once the schema passed) `new URL` failure of line 91 are
`invalidFormat`; the throw of line 112 is `missingOwnerOrRepo`. -/
def parse (url : Str) (options : ParseOptions) (fetchResult : FetchOutcome) :
    Except ParseError ParsedGitUrl :=
  if gitUrlSchema url then
    match parseURL (expandShorthand url) with
    | none => .error .invalidFormat
    | some urlObj =>
      match extractOwnerRepo urlObj with
      | none => .error .missingOwnerOrRepo
      | some p =>
        .ok {
          metadata := {
            owner := p.1
            repo := p.2
            branch := findBranch (expandShorthand url)
            commit := findCommit (expandShorthand url)
            provider := detectProvider urlObj.hostname
            isPrivate := resolvePrivate (detectProvider urlObj.hostname) fetchResult }
          normalizedUrl := "https://".toList ++ urlObj.hostname ++ ('/' :: p.1) ++ ('/' :: p.2)
          originalUrl := expandShorthand url }
  else .error .invalidFormat

/-- Lines 158-160: `validate` is `gitUrlSchema.safeParse`, whose `success` flag
is exactly the schema's refinement; no URL object, no owner/repo extraction and
no fetch is involved, and nothing can throw. -/
def validate (url : Str) : Bool := gitUrlSchema url

/-- Lines 162-171: `new URL` on the raw input (a throw is caught and yields
`false`), then `some` over the three provider patterns on the hostname. -/
def isValidProvider (url : Str) : Bool :=
  match parseURL url with
  | none => false
  | some u =>
    containsSubstrL ("github.com".toList) u.hostname ||
    containsSubstrL ("gitlab.com".toList) u.hostname ||
    containsSubstrL ("bitbucket.org".toList) u.hostname

end GitRepoParser

/-- Condition of the amended shorthand claim: the second shorthand segment is
not a dot segment (which URL normalisation would swallow) and survives the
`.git` strip (it is not literally `".git"`). -/
def shorthandRepoOk (url : Str) : Bool :=
  match splitChar '/' url with
  | [_, b] => !(isDotSeg b) && !(GitRepoParser.stripDotGit b).isEmpty
  | _ => false

/-! ## List helpers -/

theorem isEmpty_false_of_ne {α} {l : List α} (h : l ≠ []) : l.isEmpty = false := by
  cases l with
  | nil => exact absurd rfl h
  | cons x xs => rfl

theorem ne_of_isEmpty_false {α} {l : List α} (h : l.isEmpty = false) : l ≠ [] := by
  cases l with
  | nil => simp at h
  | cons x xs => exact List.cons_ne_nil _ _

theorem takeWhile_cons_true {α} {p : α → Bool} {x : α} {l : List α} (h : p x = true) :
    (x :: l).takeWhile p = x :: l.takeWhile p := by
  simp [List.takeWhile, h]

theorem takeWhile_cons_false {α} {p : α → Bool} {x : α} {l : List α} (h : p x = false) :
    (x :: l).takeWhile p = [] := by
  simp [List.takeWhile, h]

theorem dropWhile_cons_true {α} {p : α → Bool} {x : α} {l : List α} (h : p x = true) :
    (x :: l).dropWhile p = l.dropWhile p := by
  simp [List.dropWhile, h]

theorem dropWhile_cons_false {α} {p : α → Bool} {x : α} {l : List α} (h : p x = false) :
    (x :: l).dropWhile p = x :: l := by
  simp [List.dropWhile, h]

theorem takeWhile_all {α} {p : α → Bool} : ∀ {l : List α}, l.all p = true → l.takeWhile p = l
  | [], _ => rfl
  | x :: xs, h => by
    rw [List.all_cons, Bool.and_eq_true] at h
    rw [takeWhile_cons_true h.1, takeWhile_all h.2]

theorem dropWhile_all {α} {p : α → Bool} : ∀ {l : List α}, l.all p = true → l.dropWhile p = []
  | [], _ => rfl
  | x :: xs, h => by
    rw [List.all_cons, Bool.and_eq_true] at h
    rw [dropWhile_cons_true h.1, dropWhile_all h.2]

theorem takeWhile_append_all {α} {p : α → Bool} {l₂ : List α} :
    ∀ {l₁ : List α}, l₁.all p = true → (l₁ ++ l₂).takeWhile p = l₁ ++ l₂.takeWhile p
  | [], _ => rfl
  | x :: xs, h => by
    rw [List.all_cons, Bool.and_eq_true] at h
    rw [List.cons_append, takeWhile_cons_true h.1, takeWhile_append_all h.2, List.cons_append]

theorem dropWhile_append_all {α} {p : α → Bool} {l₂ : List α} :
    ∀ {l₁ : List α}, l₁.all p = true → (l₁ ++ l₂).dropWhile p = l₂.dropWhile p
  | [], _ => rfl
  | x :: xs, h => by
    rw [List.all_cons, Bool.and_eq_true] at h
    rw [List.cons_append, dropWhile_cons_true h.1, dropWhile_append_all h.2]

theorem all_takeWhile {α} (p : α → Bool) : ∀ (l : List α), (l.takeWhile p).all p = true
  | [] => rfl
  | x :: xs => by
    cases hp : p x with
    | true => rw [takeWhile_cons_true hp, List.all_cons, hp, Bool.true_and]; exact all_takeWhile p xs
    | false => rw [takeWhile_cons_false hp]; rfl

theorem all_of_take {α} {p : α → Bool} {l : List α} (h : l.all p = true) (n : Nat) :
    (l.take n).all p = true := by
  rw [List.all_eq_true] at h ⊢
  exact fun x hx => h x (List.take_subset n l hx)

theorem mem_of_mem_take {α} {x : α} {l : List α} {n : Nat} (h : x ∈ l.take n) : x ∈ l :=
  List.take_subset n l h

/-! ## `splitChar` lemmas -/

theorem splitChar_ne_nil (c : Char) : ∀ (l : Str), splitChar c l ≠ []
  | [] => by simp [splitChar]
  | x :: xs => by
    unfold splitChar
    by_cases hx : (x == c) = true
    · rw [if_pos hx]; exact List.cons_ne_nil _ _
    · rw [if_neg hx]
      cases h : splitChar c xs with
      | nil => exact List.cons_ne_nil _ _
      | cons s ss => exact List.cons_ne_nil _ _

theorem splitChar_cons_sep (c : Char) (l : Str) : splitChar c (c :: l) = [] :: splitChar c l := by
  simp only [splitChar]; rw [if_pos (by simp)]

theorem splitChar_cons_ne {c x : Char} (h : (x == c) = false) (l : Str) :
    splitChar c (x :: l) =
      match splitChar c l with
      | [] => [[x]]
      | s :: ss => (x :: s) :: ss := by
  simp only [splitChar]; rw [if_neg (by simp [h])]

theorem splitChar_no_sep {c : Char} :
    ∀ {l : Str}, l.all (fun a => !(a == c)) = true → splitChar c l = [l]
  | [], _ => rfl
  | x :: xs, h => by
    rw [List.all_cons, Bool.and_eq_true] at h
    have hx : (x == c) = false := by
      cases hxc : (x == c) with
      | false => rfl
      | true => rw [hxc] at h; exact absurd h.1 (by simp)
    rw [splitChar_cons_ne hx, splitChar_no_sep h.2]

theorem splitChar_append_no_sep {c : Char} {l₂ : Str} :
    ∀ {l₁ : Str}, l₁.all (fun a => !(a == c)) = true →
      splitChar c (l₁ ++ c :: l₂) = l₁ :: splitChar c l₂
  | [], _ => by rw [List.nil_append, splitChar_cons_sep]
  | x :: xs, h => by
    rw [List.all_cons, Bool.and_eq_true] at h
    have hx : (x == c) = false := by
      cases hxc : (x == c) with
      | false => rfl
      | true => rw [hxc] at h; exact absurd h.1 (by simp)
    rw [List.cons_append, splitChar_cons_ne hx, splitChar_append_no_sep h.2]

theorem joinChar_cons_cons (c : Char) (x y : Str) (ys : List Str) :
    joinChar c (x :: y :: ys) = x ++ c :: joinChar c (y :: ys) := rfl

theorem joinChar_splitChar (c : Char) : ∀ (l : Str), joinChar c (splitChar c l) = l
  | [] => rfl
  | x :: xs => by
    have ih := joinChar_splitChar c xs
    unfold splitChar
    by_cases hx : (x == c) = true
    · rw [if_pos hx]
      have hxc : x = c := by simpa using hx
      obtain ⟨s, ss, hss⟩ : ∃ s ss, splitChar c xs = s :: ss := by
        cases h : splitChar c xs with
        | nil => exact absurd h (splitChar_ne_nil c xs)
        | cons s ss => exact ⟨s, ss, rfl⟩
      rw [hss]
      rw [hss] at ih
      rw [joinChar_cons_cons, List.nil_append, ih, hxc]
    · rw [if_neg hx]
      obtain ⟨s, ss, hss⟩ : ∃ s ss, splitChar c xs = s :: ss := by
        cases h : splitChar c xs with
        | nil => exact absurd h (splitChar_ne_nil c xs)
        | cons s ss => exact ⟨s, ss, rfl⟩
      rw [hss]
      rw [hss] at ih
      cases ss with
      | nil =>
        show x :: s = x :: xs
        have : s = xs := ih
        rw [this]
      | cons z zs =>
        rw [joinChar_cons_cons]
        rw [joinChar_cons_cons] at ih
        show x :: (s ++ c :: joinChar c (z :: zs)) = x :: xs
        rw [ih]

theorem splitChar_pair {c : Char} {l a b : Str} (h : splitChar c l = [a, b]) :
    l = a ++ c :: b := by
  have := joinChar_splitChar c l
  rw [h] at this
  rw [← this, joinChar_cons_cons]
  rfl

theorem splitChar_all_no_sep {c : Char} :
    ∀ {l : Str}, ∀ x ∈ splitChar c l, x.all (fun a => !(a == c)) = true := by
  intro l
  induction l with
  | nil =>
    intro x hx
    simp [splitChar] at hx
    rw [hx]; rfl
  | cons y ys ih =>
    intro x hx
    unfold splitChar at hx
    by_cases hy : (y == c) = true
    · rw [if_pos hy] at hx
      cases hx with
      | head => rfl
      | tail _ h => exact ih x h
    · rw [if_neg hy] at hx
      obtain ⟨s, ss, hss⟩ : ∃ s ss, splitChar c ys = s :: ss := by
        cases h : splitChar c ys with
        | nil => exact absurd h (splitChar_ne_nil c ys)
        | cons s ss => exact ⟨s, ss, rfl⟩
      rw [hss] at hx
      cases hx with
      | head =>
        rw [List.all_cons, Bool.and_eq_true]
        constructor
        · simp [hy]
        · exact ih s (by rw [hss]; exact List.mem_cons_self _ _)
      | tail _ h => exact ih x (by rw [hss]; exact List.mem_cons_of_mem _ h)

theorem splitChar_mem_mem {c : Char} :
    ∀ {l : Str}, ∀ x ∈ splitChar c l, ∀ a ∈ x, a ∈ l := by
  intro l
  induction l with
  | nil =>
    intro x hx a ha
    simp [splitChar] at hx
    rw [hx] at ha
    simp at ha
  | cons y ys ih =>
    intro x hx a ha
    unfold splitChar at hx
    by_cases hy : (y == c) = true
    · rw [if_pos hy] at hx
      cases hx with
      | head => simp at ha
      | tail _ h => exact List.mem_cons_of_mem _ (ih x h a ha)
    · rw [if_neg hy] at hx
      obtain ⟨s, ss, hss⟩ : ∃ s ss, splitChar c ys = s :: ss := by
        cases h : splitChar c ys with
        | nil => exact absurd h (splitChar_ne_nil c ys)
        | cons s ss => exact ⟨s, ss, rfl⟩
      rw [hss] at hx
      cases hx with
      | head =>
        cases ha with
        | head => exact List.mem_cons_self _ _
        | tail _ h =>
          exact List.mem_cons_of_mem _
            (ih s (by rw [hss]; exact List.mem_cons_self _ _) a h)
      | tail _ h =>
        exact List.mem_cons_of_mem _
          (ih x (by rw [hss]; exact List.mem_cons_of_mem _ h) a ha)

/-! ## `lowerChar` lemmas -/

theorem lower_not_upper : ∀ d ∈ lowerAZ, d ∉ upperAZ := by decide

theorem ne_of_not_forbidden {c x : Char} (hx : isForbiddenHostChar x = true)
    (h : isForbiddenHostChar c = false) : (c == x) = false := by
  cases hcx : (c == x) with
  | false => rfl
  | true =>
    have : c = x := by simpa using hcx
    rw [this, hx] at h
    exact absurd h (by simp)

theorem authorityChar_of_not_forbidden {c : Char} (h : isForbiddenHostChar c = false) :
    isAuthorityChar c = true := by
  unfold isAuthorityChar
  rw [ne_of_not_forbidden (by decide) h, ne_of_not_forbidden (by decide) h,
    ne_of_not_forbidden (by decide) h]
  rfl

theorem pathChar_of_not_forbidden {c : Char} (h : isForbiddenHostChar c = false) :
    isPathChar c = true := by
  unfold isPathChar
  rw [ne_of_not_forbidden (by decide) h, ne_of_not_forbidden (by decide) h]
  rfl

theorem not_at_of_not_forbidden {c : Char} (h : isForbiddenHostChar c = false) :
    (!(c == '@')) = true := by
  rw [ne_of_not_forbidden (by decide) h]; rfl

theorem not_colon_of_not_forbidden {c : Char} (h : isForbiddenHostChar c = false) :
    (!(c == ':')) = true := by
  rw [ne_of_not_forbidden (by decide) h]; rfl

theorem class_ne {c x : Char} {p : Char → Bool} (hc : p c = true) (hx : p x = false) :
    (c == x) = false := by
  cases hcx : (c == x) with
  | false => rfl
  | true =>
    have : c = x := by simpa using hcx
    rw [this, hx] at hc
    exact absurd hc (by simp)

theorem pathChar_of_wordHyphen {c : Char} (h : isWordHyphen c = true) : isPathChar c = true := by
  unfold isPathChar
  rw [class_ne h (by decide), class_ne h (by decide)]
  rfl

theorem pathChar_of_repoChar {c : Char} (h : isRepoChar c = true) : isPathChar c = true := by
  unfold isPathChar
  rw [class_ne h (by decide), class_ne h (by decide)]
  rfl

theorem no_slash_of_wordHyphen {c : Char} (h : isWordHyphen c = true) : (!(c == '/')) = true := by
  rw [class_ne h (by decide)]; rfl

theorem no_slash_of_repoChar {c : Char} (h : isRepoChar c = true) : (!(c == '/')) = true := by
  rw [class_ne h (by decide)]; rfl

theorem all_of_forbidden_any_false {l : Str} (h : l.any isForbiddenHostChar = false) :
    ∀ c ∈ l, isForbiddenHostChar c = false := by
  intro c hc
  cases hfc : isForbiddenHostChar c with
  | false => rfl
  | true =>
    have : l.any isForbiddenHostChar = true := List.any_eq_true.mpr ⟨c, hc, hfc⟩
    rw [this] at h
    exact absurd h (by simp)

theorem listSplitFirst_https (t : Str) :
    listSplitFirst ("://".toList) ("https://".toList ++ t) = some ("https".toList, t) := by
  simp [listSplitFirst, List.isPrefixOf]

theorem dropUserinfo_no_at {l : Str} (h : l.all (fun c => !(c == '@')) = true) :
    dropUserinfo l = l := by
  unfold dropUserinfo
  rw [takeWhile_all (by rw [List.all_reverse]; exact h), List.reverse_reverse]

/-! ## Dot-segment normalisation lemmas -/

theorem dotNormAux_nil (acc : List Str) : dotNormAux acc [] = acc.reverse := rfl

theorem dotNormAux_cons_nondot {s : Str} (h : isDotSeg s = false) (acc rest : List Str) :
    dotNormAux acc (s :: rest) = dotNormAux (s :: acc) rest := by
  have h1 : (s == "..".toList) = false := by
    cases hq : (s == "..".toList) with
    | false => rfl
    | true => unfold isDotSeg at h; rw [hq] at h; simp at h
  have h2 : (s == ".".toList) = false := by
    cases hq : (s == ".".toList) with
    | false => rfl
    | true => unfold isDotSeg at h; rw [hq] at h; simp at h
  conv_lhs => unfold dotNormAux
  rw [h1, h2]
  rfl

theorem dotNormAux_dot_last (acc : List Str) :
    dotNormAux acc ((".".toList : Str) :: []) = (([] : Str) :: acc).reverse := by
  conv_lhs => unfold dotNormAux
  rw [show ((".".toList : Str) == "..".toList) = false from by decide]
  rw [show ((".".toList : Str) == ".".toList) = true from by decide]
  rfl

theorem dotNormAux_dotdot_last (acc : List Str) :
    dotNormAux acc (("..".toList : Str) :: []) = (([] : Str) :: acc.drop 1).reverse := by
  conv_lhs => unfold dotNormAux
  rw [show (("..".toList : Str) == "..".toList) = true from by decide]
  rfl

theorem normalizePath_pair {a b : Str} (ha : isDotSeg a = false) (hb : isDotSeg b = false)
    (hca : a.all (fun x => !(x == '/')) = true) (hcb : b.all (fun x => !(x == '/')) = true) :
    normalizePath ('/' :: (a ++ ('/' :: b))) = '/' :: (a ++ ('/' :: b)) := by
  show '/' :: joinChar '/' (dotNormAux [] (splitChar '/' (a ++ ('/' :: b)))) = _
  rw [splitChar_append_no_sep hca, splitChar_no_sep hcb]
  rw [dotNormAux_cons_nondot ha, dotNormAux_cons_nondot hb]
  rfl

theorem normalizePath_dot_last {a : Str} (ha : isDotSeg a = false)
    (hca : a.all (fun x => !(x == '/')) = true) :
    normalizePath ('/' :: (a ++ ('/' :: ".".toList))) = '/' :: (a ++ ('/' :: [])) := by
  show '/' :: joinChar '/' (dotNormAux [] (splitChar '/' (a ++ ('/' :: ".".toList)))) = _
  rw [splitChar_append_no_sep hca, splitChar_no_sep (by decide)]
  rw [dotNormAux_cons_nondot ha, dotNormAux_dot_last]
  rfl

theorem normalizePath_dotdot_last {a : Str} (ha : isDotSeg a = false)
    (hca : a.all (fun x => !(x == '/')) = true) :
    normalizePath ('/' :: (a ++ ('/' :: "..".toList))) = ['/'] := by
  show '/' :: joinChar '/' (dotNormAux [] (splitChar '/' (a ++ ('/' :: "..".toList)))) = _
  rw [splitChar_append_no_sep hca, splitChar_no_sep (by decide)]
  rw [dotNormAux_cons_nondot ha, dotNormAux_dotdot_last]
  rfl

theorem mkPathname_slash {t : Str} (h : t.all isPathChar = true) :
    mkPathname ('/' :: t) = normalizePath ('/' :: t) := by
  unfold mkPathname
  rw [takeWhile_cons_true (by decide), takeWhile_all h]

theorem hostportOf_host {host : Str} (t : Str)
    (hauth : host.all isAuthorityChar = true) (hat : host.all (fun c => !(c == '@')) = true) :
    hostportOf (host ++ ('/' :: t)) = host := by
  unfold hostportOf
  rw [takeWhile_append_all hauth, takeWhile_cons_false (by decide), List.append_nil,
    dropUserinfo_no_at hat]

theorem parseURLrest_host {host : Str} (sp : Bool) (t : Str) (h1 : host ≠ [])
    (h2 : host.any isForbiddenHostChar = false) :
    parseURLrest sp (host ++ ('/' :: t)) =
      some ⟨if sp then host.map lowerChar else host, mkPathname ('/' :: t)⟩ := by
  have hforb := all_of_forbidden_any_false h2
  have hauth : host.all isAuthorityChar = true :=
    List.all_eq_true.mpr fun c hc => authorityChar_of_not_forbidden (hforb c hc)
  have hat : host.all (fun c => !(c == '@')) = true :=
    List.all_eq_true.mpr fun c hc => not_at_of_not_forbidden (hforb c hc)
  have hcolon : host.all (fun c => !(c == ':')) = true :=
    List.all_eq_true.mpr fun c hc => not_colon_of_not_forbidden (hforb c hc)
  have hhp : hostportOf (host ++ ('/' :: t)) = host := hostportOf_host t hauth hat
  have hhost : hostOf (host ++ ('/' :: t)) = host := by
    unfold hostOf
    rw [hhp, takeWhile_all hcolon]
  have hport : portOkOf (host ++ ('/' :: t)) = true := by
    unfold portOkOf
    rw [hhp, dropWhile_all hcolon]
  have hdrop : (host ++ ('/' :: t)).dropWhile isAuthorityChar = '/' :: t := by
    rw [dropWhile_append_all hauth, dropWhile_cons_false (by decide)]
  unfold parseURLrest
  rw [hhost, hport, hdrop, isEmpty_false_of_ne h1, h2]
  rfl

theorem parseURL_normalized {host : Str} (t : Str) (h1 : host ≠ [])
    (h2 : host.any isForbiddenHostChar = false) :
    parseURL ("https://".toList ++ (host ++ ('/' :: t))) =
      some ⟨host.map lowerChar, mkPathname ('/' :: t)⟩ := by
  unfold parseURL
  rw [listSplitFirst_https]
  show (if validScheme ("https".toList) then
    parseURLrest (isSpecialScheme ("https".toList)) (host ++ ('/' :: t)) else none) = _
  rw [if_pos (show validScheme ("https".toList) = true by decide)]
  rw [show isSpecialScheme ("https".toList) = true from by decide]
  exact parseURLrest_host true t h1 h2

theorem parseURL_github_prefix {url : Str} (hpath : url.all isPathChar = true) :
    parseURL ("https://github.com/".toList ++ url) =
      some ⟨"github.com".toList, normalizePath ('/' :: url)⟩ := by
  have hassoc : "https://github.com/".toList ++ url =
      "https://".toList ++ ("github.com".toList ++ ('/' :: url)) := rfl
  rw [hassoc, parseURL_normalized url (by decide) (by decide), mkPathname_slash hpath]
  rfl

theorem all_imp {p q : Char → Bool} (hpq : ∀ c, p c = true → q c = true) {l : Str}
    (h : l.all p = true) : l.all q = true :=
  List.all_eq_true.mpr fun c hc => hpq c (List.all_eq_true.mp h c hc)

theorem findCommit_decomp : ∀ {l cap : Str}, findCommit l = some cap →
    cap ≠ [] ∧ cap.all isHexCI = true ∧
      ∃ p q, l = p ++ q ∧ ciPrefixOf ("/commit/".toList) q = true := by
  intro l
  induction l with
  | nil => intro cap h; exact absurd h (by simp [findCommit])
  | cons c rest ih =>
    intro cap h
    unfold findCommit at h
    by_cases hci : ciPrefixOf ("/commit/".toList) (c :: rest) = true
    · rw [if_pos hci] at h
      cases htw : ((c :: rest).drop 8).takeWhile isHexCI with
      | nil =>
        rw [htw] at h
        have h' : findCommit rest = some cap := h
        obtain ⟨hne, hhex, p, q, hpq, hq⟩ := ih h'
        exact ⟨hne, hhex, c :: p, q, by rw [hpq]; rfl, hq⟩
      | cons a as =>
        rw [htw] at h
        have h' : some (a :: as) = some cap := h
        have hcap : cap = a :: as := by
          injection h' with h2
          exact h2.symm
        refine ⟨by rw [hcap]; exact List.cons_ne_nil _ _, ?_, [], c :: rest, rfl, hci⟩
        rw [hcap, ← htw]
        exact all_takeWhile _ _
    · rw [if_neg hci] at h
      obtain ⟨hne, hhex, p, q, hpq, hq⟩ := ih h
      exact ⟨hne, hhex, c :: p, q, by rw [hpq]; rfl, hq⟩

theorem splitFirst_head_mem {c₀ : Char} {sep : Str} :
    ∀ {l : Str}, (listSplitFirst (c₀ :: sep) l).isSome = true → c₀ ∈ l := by
  intro l
  induction l with
  | nil => intro h; simp [listSplitFirst] at h
  | cons c rest ih =>
    intro h
    unfold listSplitFirst at h
    by_cases hpre : (c₀ :: sep).isPrefixOf (c :: rest) = true
    · have h1 : (c₀ == c) = true ∧ sep.isPrefixOf rest = true := by
        simpa [List.isPrefixOf, Bool.and_eq_true] using hpre
      have : c₀ = c := by simpa using h1.1
      rw [this]
      exact List.mem_cons_self _ _
    · rw [if_neg hpre] at h
      cases hin : listSplitFirst (c₀ :: sep) rest with
      | none => rw [hin] at h; simp at h
      | some q => exact List.mem_cons_of_mem _ (ih (by rw [hin]; rfl))

/-! ## Shorthand lemmas -/

theorem isShorthand_destruct {url : Str} (h : isShorthand url = true) :
    ∃ a b, splitChar '/' url = [a, b] ∧ a ≠ [] ∧ a.all isWordHyphen = true ∧
      b ≠ [] ∧ b.all isRepoChar = true := by
  unfold isShorthand at h
  cases hsp : splitChar '/' url with
  | nil => rw [hsp] at h; simp at h
  | cons a tl =>
    cases tl with
    | nil => rw [hsp] at h; simp at h
    | cons b tl2 =>
      cases tl2 with
      | nil =>
        rw [hsp] at h
        have h' : (!a.isEmpty && a.all isWordHyphen && !b.isEmpty && b.all isRepoChar) = true := h
        simp only [Bool.and_eq_true, Bool.not_eq_true'] at h'
        exact ⟨a, b, rfl, ne_of_isEmpty_false h'.1.1.1, h'.1.1.2,
          ne_of_isEmpty_false h'.1.2, h'.2⟩
      | cons x tl3 => rw [hsp] at h; simp at h

theorem shorthand_no_colon {url : Str} (h : isShorthand url = true) : ':' ∉ url := by
  obtain ⟨a, b, hsp, _, hwa, _, hwb⟩ := isShorthand_destruct h
  rw [splitChar_pair hsp]
  intro hmem
  rcases List.mem_append.mp hmem with hma | hmb
  · have := List.all_eq_true.mp hwa _ hma
    exact absurd this (by decide)
  · rcases List.mem_cons.mp hmb with heq | hmb'
    · exact absurd heq (by decide)
    · have := List.all_eq_true.mp hwb _ hmb'
      exact absurd this (by decide)

theorem shorthand_all_pathChar {url : Str} (h : isShorthand url = true) :
    url.all isPathChar = true := by
  obtain ⟨a, b, hsp, _, hwa, _, hwb⟩ := isShorthand_destruct h
  rw [splitChar_pair hsp, List.all_append, List.all_cons]
  rw [all_imp (fun c => pathChar_of_wordHyphen) hwa,
    all_imp (fun c => pathChar_of_repoChar) hwb]
  rfl

theorem shorthand_parseURL_none {url : Str} (h : isShorthand url = true) :
    parseURL url = none := by
  unfold parseURL
  cases hsp : listSplitFirst ("://".toList) url with
  | none => rfl
  | some p =>
    exfalso
    have hmem : ':' ∈ url := by
      have h' : (listSplitFirst (':' :: ('/' :: ('/' :: []))) url).isSome = true := by
        rw [show (':' :: ('/' :: ('/' :: []))) = "://".toList from rfl, hsp]
        rfl
      exact splitFirst_head_mem h'
    exact shorthand_no_colon h hmem

/-! ## Schema and extraction lemmas -/

theorem schema_no_scheme {url : Str} (h : containsSubstrL ("://".toList) url = false) :
    gitUrlSchema url = isShorthand url := by
  unfold gitUrlSchema
  rw [h]
  rfl

theorem expand_no_scheme {url : Str} (h : containsSubstrL ("://".toList) url = false) :
    GitRepoParser.expandShorthand url = "https://github.com/".toList ++ url := by
  unfold GitRepoParser.expandShorthand
  rw [h]
  rfl

theorem expand_with_scheme {url : Str} (h : containsSubstrL ("://".toList) url = true) :
    GitRepoParser.expandShorthand url = url := by
  unfold GitRepoParser.expandShorthand
  rw [h]
  rfl

theorem schema_with_scheme {url : Str} (h : containsSubstrL ("://".toList) url = true) :
    gitUrlSchema url = (parseURL url).isSome := by
  unfold gitUrlSchema
  rw [h]
  rfl

theorem schema_parseURL_some {url : Str} (h : gitUrlSchema url = true) :
    ∃ u, parseURL (GitRepoParser.expandShorthand url) = some u := by
  cases hc : containsSubstrL ("://".toList) url with
  | true =>
    rw [expand_with_scheme hc]
    rw [schema_with_scheme hc] at h
    exact Option.isSome_iff_exists.mp h
  | false =>
    rw [expand_no_scheme hc]
    rw [schema_no_scheme hc] at h
    exact ⟨_, parseURL_github_prefix (shorthand_all_pathChar h)⟩

theorem extract_pathname_pair {a b : Str} (H : Str) (ha : a ≠ []) (hb : b ≠ [])
    (hca : a.all (fun x => !(x == '/')) = true) (hcb : b.all (fun x => !(x == '/')) = true) :
    GitRepoParser.extractOwnerRepo ⟨H, '/' :: (a ++ ('/' :: b))⟩ =
      (if (GitRepoParser.stripDotGit b).isEmpty then none
       else some (a, GitRepoParser.stripDotGit b)) := by
  unfold GitRepoParser.extractOwnerRepo
  have hpn : (⟨H, '/' :: (a ++ ('/' :: b))⟩ : URLObj).pathname = '/' :: (a ++ ('/' :: b)) := rfl
  simp only [hpn]
  rw [splitChar_cons_sep, splitChar_append_no_sep hca, splitChar_no_sep hcb]
  have hfil : (([] : Str) :: a :: [b]).filter (fun s => !s.isEmpty) = [a, b] := by
    simp [List.filter_cons, isEmpty_false_of_ne ha, isEmpty_false_of_ne hb]
  rw [hfil]
  show (if a.isEmpty || (GitRepoParser.stripDotGit b).isEmpty then none
    else some (a, GitRepoParser.stripDotGit b)) = _
  rw [isEmpty_false_of_ne ha, Bool.false_or]

theorem extractOwnerRepo_facts {u : URLObj} {p : Str × Str}
    (h : GitRepoParser.extractOwnerRepo u = some p) :
    p.1 ≠ [] ∧ p.2 ≠ [] ∧
      p.1.all (fun x => !(x == '/')) = true ∧ p.2.all (fun x => !(x == '/')) = true ∧
      (∀ x ∈ p.1, x ∈ u.pathname) ∧ (∀ x ∈ p.2, x ∈ u.pathname) ∧
      p.1 ∈ splitChar '/' u.pathname := by
  unfold GitRepoParser.extractOwnerRepo at h
  cases hsp : (splitChar '/' u.pathname).filter (fun s => !s.isEmpty) with
  | nil => rw [hsp] at h; exact absurd h (by simp)
  | cons owner tl =>
    cases tl with
    | nil => rw [hsp] at h; exact absurd h (by simp)
    | cons repoRaw tl2 =>
      rw [hsp] at h
      have h' : (if owner.isEmpty || (GitRepoParser.stripDotGit repoRaw).isEmpty then none
          else some (owner, GitRepoParser.stripDotGit repoRaw)) = some p := h
      by_cases hcond : (owner.isEmpty || (GitRepoParser.stripDotGit repoRaw).isEmpty) = true
      · rw [if_pos hcond] at h'; exact absurd h' (by simp)
      · rw [if_neg hcond] at h'
        have hp : p = (owner, GitRepoParser.stripDotGit repoRaw) := by
          injection h' with h2
          exact h2.symm
        have hcond' := hcond
        simp only [Bool.or_eq_true, not_or] at hcond'
        have howner : owner ∈ splitChar '/' u.pathname := by
          have : owner ∈ (splitChar '/' u.pathname).filter (fun s => !s.isEmpty) := by
            rw [hsp]; exact List.mem_cons_self _ _
          exact List.mem_of_mem_filter this
        have hrepo : repoRaw ∈ splitChar '/' u.pathname := by
          have : repoRaw ∈ (splitChar '/' u.pathname).filter (fun s => !s.isEmpty) := by
            rw [hsp]; exact List.mem_cons_of_mem _ (List.mem_cons_self _ _)
          exact List.mem_of_mem_filter this
        have hstrip : ∀ x ∈ GitRepoParser.stripDotGit repoRaw, x ∈ repoRaw := by
          intro x hx
          unfold GitRepoParser.stripDotGit at hx
          by_cases hsuf : ((".git".toList).isSuffixOf repoRaw) = true
          · rw [if_pos hsuf] at hx; exact mem_of_mem_take hx
          · rw [if_neg hsuf] at hx; exact hx
        rw [hp]
        refine ⟨?_, ?_, ?_, ?_, ?_, ?_, ?_⟩
        · show owner ≠ []
          intro hnil
          exact hcond'.1 (by rw [hnil]; rfl)
        · show GitRepoParser.stripDotGit repoRaw ≠ []
          intro hnil
          exact hcond'.2 (by rw [hnil]; rfl)
        · exact splitChar_all_no_sep owner howner
        · exact List.all_eq_true.mpr fun x hx =>
            List.all_eq_true.mp (splitChar_all_no_sep repoRaw hrepo) x (hstrip x hx)
        · exact fun x hx => splitChar_mem_mem owner howner x hx
        · exact fun x hx => splitChar_mem_mem repoRaw hrepo x (hstrip x hx)
        · show owner ∈ splitChar '/' u.pathname
          exact howner

theorem wordHyphen_not_dotseg {a : Str} (hw : a.all isWordHyphen = true) :
    isDotSeg a = false := by
  cases hq : isDotSeg a with
  | false => rfl
  | true =>
    exfalso
    unfold isDotSeg at hq
    rw [Bool.or_eq_true] at hq
    rcases hq with hq | hq
    · have ha : a = ".".toList := by simpa using hq
      rw [ha] at hw
      exact absurd hw (by decide)
    · have ha : a = "..".toList := by simpa using hq
      rw [ha] at hw
      exact absurd hw (by decide)

theorem extract_single (H : Str) {a : Str} (ha : a ≠ [])
    (hca : a.all (fun x => !(x == '/')) = true) :
    GitRepoParser.extractOwnerRepo ⟨H, '/' :: (a ++ ('/' :: []))⟩ = none := by
  unfold GitRepoParser.extractOwnerRepo
  have hpn : (⟨H, '/' :: (a ++ ('/' :: []))⟩ : URLObj).pathname = '/' :: (a ++ ('/' :: [])) := rfl
  simp only [hpn]
  rw [splitChar_cons_sep, splitChar_append_no_sep hca]
  rw [show splitChar '/' ([] : Str) = [([] : Str)] from rfl]
  have hfil : (([] : Str) :: a :: [([] : Str)]).filter (fun s => !s.isEmpty) = [a] := by
    simp [List.filter_cons, isEmpty_false_of_ne ha]
  rw [hfil]

theorem extract_root (H : Str) :
    GitRepoParser.extractOwnerRepo ⟨H, ['/']⟩ = none := rfl

/-! ## Inversion of `parse` -/

theorem parse_ok_iff {url : Str} {t : ParseOptions} {o : FetchOutcome} {r : ParsedGitUrl} :
    GitRepoParser.parse url t o = .ok r ↔
      gitUrlSchema url = true ∧
        ∃ u p, parseURL (GitRepoParser.expandShorthand url) = some u ∧
          GitRepoParser.extractOwnerRepo u = some p ∧
          r = { metadata := { owner := p.1, repo := p.2,
                              branch := findBranch (GitRepoParser.expandShorthand url),
                              commit := findCommit (GitRepoParser.expandShorthand url),
                              provider := GitRepoParser.detectProvider u.hostname,
                              isPrivate := GitRepoParser.resolvePrivate
                                (GitRepoParser.detectProvider u.hostname) o },
                normalizedUrl := "https://".toList ++ u.hostname ++ ('/' :: p.1) ++ ('/' :: p.2),
                originalUrl := GitRepoParser.expandShorthand url } := by
  unfold GitRepoParser.parse
  constructor
  · intro h
    split at h
    case isTrue hs =>
      split at h
      next heq => exact absurd h (by simp)
      next urlObj heq =>
        split at h
        next heq2 => exact absurd h (by simp)
        next p' heq2 =>
          refine ⟨hs, urlObj, p', heq, heq2, ?_⟩
          injection h with h2
          exact h2.symm
    case isFalse hs => exact absurd h (by simp)
  · rintro ⟨hs, u, p, hu, hp, hr⟩
    rw [if_pos hs]
    split
    · next heq => rw [hu] at heq; exact absurd heq (by simp)
    · next urlObj heq =>
        rw [hu] at heq
        injection heq with hequ
        subst hequ
        split
        · next heq2 => rw [hp] at heq2; exact absurd heq2 (by simp)
        · next p' heq2 =>
            rw [hp] at heq2
            injection heq2 with heqp
            subst heqp
            rw [hr]

/-! ## Claims -/

/-- Claim C3 (counterexample): on input `"tree/main"` the parse succeeds with
branch `"main"`, and the returned `normalizedUrl` `https://github.com/tree/main`
does contain the substring `/tree/<branch>` for the returned branch, contrary to
the claim that it never does. -/
theorem claim_C3_counterexample :
    (GitRepoParser.parse ("tree/main".toList) {} .networkError).map
        (fun r => (r.metadata.branch, r.normalizedUrl)) =
      .ok (some ("main".toList), "https://github.com/tree/main".toList) ∧
    containsSubstrL ("/tree/".toList ++ "main".toList)
      ("https://github.com/tree/main".toList) = true := by
  exact ⟨by decide, by decide⟩

/-- Claim C3 (amended): in every successful parse the `normalizedUrl` is exactly
`https://<host>/<owner>/<repo>` built from the expanded URL's hostname and the
extracted owner and repo; the original claim's additional "contains no
`/tree/<branch>` or `/commit/<commit>` substring" fails when owner (or host) is
itself `tree` or `commit`, as the counterexample shows. -/
theorem claim_C3_amended (url : Str) (t : ParseOptions) (o : FetchOutcome) (r : ParsedGitUrl)
    (h : GitRepoParser.parse url t o = .ok r) :
    ∃ u, parseURL (GitRepoParser.expandShorthand url) = some u ∧
      r.normalizedUrl =
        "https://".toList ++ u.hostname ++ ('/' :: r.metadata.owner) ++
          ('/' :: r.metadata.repo) := by
  obtain ⟨hs, u, p, hu, hp, hr⟩ := parse_ok_iff.mp h
  exact ⟨u, hu, by rw [hr]⟩

/-- Witness for the amended C3 at the concrete input `user/repo`. -/
theorem claim_C3_witness :
    ∃ u, parseURL (GitRepoParser.expandShorthand ("user/repo".toList)) = some u ∧
      ("https://github.com/user/repo".toList : Str) =
        "https://".toList ++ u.hostname ++ ('/' :: "user".toList) ++ ('/' :: "repo".toList) :=
  claim_C3_amended ("user/repo".toList) {} .networkError
    ⟨⟨"user".toList, "repo".toList, none, none, .github, some false⟩,
      "https://github.com/user/repo".toList, "https://github.com/user/repo".toList⟩
    (by decide)

/-- Claim C4 (counterexample): the commit capture is taken verbatim and the match
is case-insensitive, so `"https://github.com/user/repo/commit/ABC"` yields the
commit `"ABC"`, which is not a lowercase hexadecimal string. -/
theorem claim_C4_counterexample :
    (GitRepoParser.parse ("https://github.com/user/repo/commit/ABC".toList) {}
        .networkError).map (fun r => r.metadata.commit) = .ok (some ("ABC".toList)) ∧
    ("ABC".toList).all (fun c => c.isDigit || ('a' ≤ c && c ≤ 'f')) = false := by
  exact ⟨by decide, by decide⟩

/-- Claim C4 (amended): in every successful parse the commit field is exactly the
first case-insensitive `/commit/<hex>` capture of the expanded input, taken
verbatim; when present it is a non-empty hexadecimal string (of either case,
not necessarily lowercase), and the expanded input then contains a
case-insensitive `/commit/` occurrence introducing it. -/
theorem claim_C4_amended (url : Str) (t : ParseOptions) (o : FetchOutcome) (r : ParsedGitUrl)
    (h : GitRepoParser.parse url t o = .ok r) :
    r.metadata.commit = findCommit (GitRepoParser.expandShorthand url) ∧
    (∀ cap, r.metadata.commit = some cap →
      cap ≠ [] ∧ cap.all isHexCI = true ∧
      ∃ p q, GitRepoParser.expandShorthand url = p ++ q ∧
        ciPrefixOf ("/commit/".toList) q = true) := by
  obtain ⟨hs, u, p, hu, hp, hr⟩ := parse_ok_iff.mp h
  constructor
  · rw [hr]
  · intro cap hc
    rw [hr] at hc
    exact findCommit_decomp hc

/-- Witness for the amended C4 at the concrete input
`https://github.com/user/repo/commit/abc123`. -/
theorem claim_C4_witness :
    (some ("abc123".toList) : Option Str) =
        findCommit (GitRepoParser.expandShorthand
          ("https://github.com/user/repo/commit/abc123".toList)) ∧
    (∀ cap, (some ("abc123".toList) : Option Str) = some cap →
      cap ≠ [] ∧ cap.all isHexCI = true ∧
      ∃ p q, GitRepoParser.expandShorthand
          ("https://github.com/user/repo/commit/abc123".toList) = p ++ q ∧
        ciPrefixOf ("/commit/".toList) q = true) :=
  claim_C4_amended ("https://github.com/user/repo/commit/abc123".toList) {} .networkError
    ⟨⟨"user".toList, "repo".toList, none, some ("abc123".toList), .github, some false⟩,
      "https://github.com/user/repo".toList,
      "https://github.com/user/repo/commit/abc123".toList⟩
    (by decide)

/-- Claim C5 (code bug, evaluation): with a 200 response whose JSON body has no
boolean `private` member, `isPrivate` becomes the JS `undefined` (modelled
`none`) — neither `true` nor `false` — violating the claim (and the source's own
`isPrivate: boolean` declaration); every genuine failure mode (rejected fetch,
non-ok status, unreadable body) and every non-github provider yields `false`,
an ok `{private: true}` body yields `true`, and for a non-github provider the
result does not depend on the lookup at all (no lookup is attempted). -/
theorem claim_C5_lookup_eval :
    (GitRepoParser.parse ("https://github.com/user/repo".toList) {}
        (.response true (.obj none))).map (fun r => r.metadata.isPrivate) = .ok none ∧
    (GitRepoParser.parse ("https://github.com/user/repo".toList) {}
        .networkError).map (fun r => r.metadata.isPrivate) = .ok (some false) ∧
    (GitRepoParser.parse ("https://github.com/user/repo".toList) {}
        (.response false (.obj (some true)))).map (fun r => r.metadata.isPrivate) =
      .ok (some false) ∧
    (GitRepoParser.parse ("https://github.com/user/repo".toList) {}
        (.response true .invalid)).map (fun r => r.metadata.isPrivate) = .ok (some false) ∧
    (GitRepoParser.parse ("https://github.com/user/repo".toList) {}
        (.response true (.obj (some true)))).map (fun r => r.metadata.isPrivate) =
      .ok (some true) ∧
    (∀ t o, GitRepoParser.parse ("https://gitlab.com/user/repo".toList) t o =
      GitRepoParser.parse ("https://gitlab.com/user/repo".toList) {} .networkError) ∧
    (GitRepoParser.parse ("https://gitlab.com/user/repo".toList) {}
        .networkError).map (fun r => r.metadata.isPrivate) = .ok (some false) := by
  refine ⟨by decide, by decide, by decide, by decide, by decide, ?_, by decide⟩
  intro t o
  rfl

/-- Claim C6: in every successful parse, owner and repo are non-empty; and when
the format check passed and the expanded URL parsed but the path (split on `/`,
empty segments discarded, `.git` stripped from the second segment) does not
yield both a non-empty owner and a non-empty repo, `parse` fails with the
`missingOwnerOrRepo` error. -/
theorem claim_C6_owner_repo (url : Str) (t : ParseOptions) (o : FetchOutcome) :
    (∀ r, GitRepoParser.parse url t o = .ok r →
      r.metadata.owner ≠ [] ∧ r.metadata.repo ≠ []) ∧
    (gitUrlSchema url = true → ∀ u, parseURL (GitRepoParser.expandShorthand url) = some u →
      GitRepoParser.extractOwnerRepo u = none →
      GitRepoParser.parse url t o = .error .missingOwnerOrRepo) := by
  constructor
  · intro r h
    obtain ⟨hs, u, p, hu, hp, hr⟩ := parse_ok_iff.mp h
    obtain ⟨h1, h2, _⟩ := extractOwnerRepo_facts hp
    rw [hr]
    exact ⟨h1, h2⟩
  · intro hs u hu hnone
    unfold GitRepoParser.parse
    rw [if_pos hs]
    split
    next heq => rw [hu] at heq; exact absurd heq (by simp)
    next urlObj heq =>
      rw [hu] at heq
      injection heq with hequ
      subst hequ
      split
      next heq2 => rfl
      next p' heq2 => rw [hnone] at heq2; exact absurd heq2 (by simp)

/-- Witness for C6 at `https://github.com/user/repo` (success part) and
`https://example.com/user` (failure part: a single path segment). -/
theorem claim_C6_witness :
    (∀ r, GitRepoParser.parse ("https://github.com/user/repo".toList) {} .networkError =
        .ok r → r.metadata.owner ≠ [] ∧ r.metadata.repo ≠ []) ∧
    GitRepoParser.parse ("https://example.com/user".toList) {} .networkError =
      .error .missingOwnerOrRepo :=
  ⟨(claim_C6_owner_repo ("https://github.com/user/repo".toList) {} .networkError).1,
    (claim_C6_owner_repo ("https://example.com/user".toList) {} .networkError).2
      (by decide) ⟨"example.com".toList, "/user".toList⟩ (by decide) (by decide)⟩

/-- Claim C7: `validate` is exactly the schema refinement, involving no URL
object construction, no owner/repo extraction and no fetch (it is a total
function of the input string alone); and `parse` fails with `invalidFormat`
exactly when that refinement rejects the input. -/
theorem claim_C7_validate (url : Str) :
    GitRepoParser.validate url = gitUrlSchema url ∧
    ∀ t o, (GitRepoParser.parse url t o = .error .invalidFormat ↔
      gitUrlSchema url = false) := by
  refine ⟨rfl, ?_⟩
  intro t o
  constructor
  · intro h
    cases hs : gitUrlSchema url with
    | false => rfl
    | true =>
      exfalso
      obtain ⟨u, hu⟩ := schema_parseURL_some hs
      unfold GitRepoParser.parse at h
      rw [if_pos hs] at h
      split at h
      next heq => rw [hu] at heq; exact absurd heq (by simp)
      next urlObj heq =>
        split at h
        next heq2 => exact absurd h (by simp)
        next p' heq2 => exact absurd h (by simp)
  · intro h
    unfold GitRepoParser.parse
    rw [h]
    rfl

/-- Witness for C7: at `invalid-url` the schema rejects and `parse` fails with
`invalidFormat`. -/
theorem claim_C7_witness :
    GitRepoParser.parse ("invalid-url".toList) {} .networkError =
      .error .invalidFormat :=
  ((claim_C7_validate ("invalid-url".toList)).2 {} .networkError).mpr (by decide)

/-- Claim C8: the provider of a successful parse is `detectProvider` applied to
the expanded URL's hostname — the ordered first-match over the github, gitlab,
bitbucket patterns with github as the no-match default — and success itself is
characterised without any reference to provider detection (an unrecognized host
is never a failure). -/
theorem claim_C8_provider (url : Str) (t : ParseOptions) (o : FetchOutcome) :
    (∀ r, GitRepoParser.parse url t o = .ok r →
      ∃ u, parseURL (GitRepoParser.expandShorthand url) = some u ∧
        r.metadata.provider = GitRepoParser.detectProvider u.hostname) ∧
    ((∃ r, GitRepoParser.parse url t o = .ok r) ↔
      (gitUrlSchema url = true ∧ ∃ u p, parseURL (GitRepoParser.expandShorthand url) = some u ∧
        GitRepoParser.extractOwnerRepo u = some p)) := by
  constructor
  · intro r h
    obtain ⟨hs, u, p, hu, hp, hr⟩ := parse_ok_iff.mp h
    exact ⟨u, hu, by rw [hr]⟩
  · constructor
    · rintro ⟨r, h⟩
      obtain ⟨hs, u, p, hu, hp, _⟩ := parse_ok_iff.mp h
      exact ⟨hs, u, p, hu, hp⟩
    · rintro ⟨hs, u, p, hu, hp⟩
      exact ⟨_, parse_ok_iff.mpr ⟨hs, u, p, hu, hp, rfl⟩⟩

/-- Witness for C8 at the unrecognized host `example.com`: the parse still
succeeds and its provider is the github default. -/
theorem claim_C8_witness :
    ∃ r, GitRepoParser.parse ("https://example.com/user/repo".toList) {} .networkError =
      .ok r :=
  (claim_C8_provider ("https://example.com/user/repo".toList) {} .networkError).2.mpr
    ⟨by decide, ⟨"example.com".toList, "/user/repo".toList⟩,
      ("user".toList, "repo".toList), by decide, by decide⟩

/-- Claim C9: `isValidProvider` is true exactly when the input parses as an
absolute URL whose host matches one of the three provider patterns; every
shorthand input (the `owner/repo` regex form) yields false, and the function is
total (a throwing URL constructor is caught and yields false). -/
theorem claim_C9_isValidProvider (url : Str) :
    (GitRepoParser.isValidProvider url = true ↔
      ∃ u, parseURL url = some u ∧
        (containsSubstrL ("github.com".toList) u.hostname ||
         containsSubstrL ("gitlab.com".toList) u.hostname ||
         containsSubstrL ("bitbucket.org".toList) u.hostname) = true) ∧
    (isShorthand url = true → GitRepoParser.isValidProvider url = false) := by
  constructor
  · unfold GitRepoParser.isValidProvider
    cases hp : parseURL url with
    | none =>
      constructor
      · intro h; exact absurd h (by simp)
      · rintro ⟨u, hu, _⟩; exact absurd hu (by simp)
    | some u =>
      constructor
      · intro h; exact ⟨u, rfl, h⟩
      · rintro ⟨u', hu', hpat⟩
        injection hu' with h2
        subst h2
        exact hpat
  · intro hsh
    unfold GitRepoParser.isValidProvider
    rw [shorthand_parseURL_none hsh]

/-- Witness for C9: the shorthand `user/repo` is not a valid provider reference,
while `https://gitlab.com/user/repo` is. -/
theorem claim_C9_witness :
    GitRepoParser.isValidProvider ("user/repo".toList) = false ∧
    GitRepoParser.isValidProvider ("https://gitlab.com/user/repo".toList) = true :=
  ⟨(claim_C9_isValidProvider ("user/repo".toList)).2 (by decide),
    (claim_C9_isValidProvider ("https://gitlab.com/user/repo".toList)).1.mpr
      ⟨⟨"gitlab.com".toList, "/user/repo".toList⟩, by decide, by decide⟩⟩

/-- Claim C10 (noninterference): for one input and any two visibility-lookup
behaviours and any two auth tokens, the successful results agree on owner, repo,
branch, commit, provider, `normalizedUrl` and `originalUrl`; only `isPrivate`
can differ. -/
theorem claim_C10_noninterference (url : Str) (t₁ t₂ : ParseOptions) (o₁ o₂ : FetchOutcome)
    (r₁ : ParsedGitUrl) (h : GitRepoParser.parse url t₁ o₁ =.ok r₁) :
    ∃ r₂, GitRepoParser.parse url t₂ o₂ = .ok r₂ ∧
      r₂.metadata.owner = r₁.metadata.owner ∧ r₂.metadata.repo = r₁.metadata.repo ∧
      r₂.metadata.branch = r₁.metadata.branch ∧ r₂.metadata.commit = r₁.metadata.commit ∧
      r₂.metadata.provider = r₁.metadata.provider ∧
      r₂.normalizedUrl = r₁.normalizedUrl ∧ r₂.originalUrl = r₁.originalUrl := by
  obtain ⟨hs, u, p, hu, hp, hr⟩ := parse_ok_iff.mp h
  refine ⟨_, parse_ok_iff.mpr ⟨hs, u, p, hu, hp, rfl⟩, ?_⟩
  rw [hr]
  exact ⟨rfl, rfl, rfl, rfl, rfl, rfl, rfl⟩

/-- Witness for C10 at `https://github.com/user/repo` with a network failure on
one side and an ok `{private: true}` response plus a token on the other. -/
theorem claim_C10_witness :
    ∃ r₂, GitRepoParser.parse ("https://github.com/user/repo".toList)
        { authToken := some ("tok".toList) } (.response true (.obj (some true))) = .ok r₂ ∧
      r₂.metadata.owner = "user".toList ∧ r₂.metadata.repo = "repo".toList ∧
      r₂.metadata.branch = none ∧ r₂.metadata.commit = none ∧
      r₂.metadata.provider = .github ∧
      r₂.normalizedUrl = "https://github.com/user/repo".toList ∧
      r₂.originalUrl = "https://github.com/user/repo".toList :=
  claim_C10_noninterference ("https://github.com/user/repo".toList) {}
    { authToken := some ("tok".toList) } .networkError (.response true (.obj (some true)))
    ⟨⟨"user".toList, "repo".toList, none, none, .github, some false⟩,
      "https://github.com/user/repo".toList, "https://github.com/user/repo".toList⟩
    (by decide)

/-- Claim C1 (counterexample): `"user/.git"` contains no `"://"` and matches the
shorthand regex, yet `parse` fails (the `.git` strip empties the repo segment),
contradicting the claimed equivalence. -/
theorem claim_C1_counterexample :
    containsSubstrL ("://".toList) ("user/.git".toList) = false ∧
    isShorthand ("user/.git".toList) = true ∧
    GitRepoParser.parse ("user/.git".toList) {} .networkError =
      .error .missingOwnerOrRepo :=
  ⟨by decide, by decide, by decide⟩

/-- Claim C1 (amended): for every input without `"://"`, `parse` succeeds iff the
shorthand regex matches *and* the second segment is neither a dot segment
(`"."` or `".."`, which URL path normalisation swallows, leaving too few path
segments) nor stripped to nothing by the `.git` removal (it is not literally
`".git"`); in every such success the provider is github. -/
theorem claim_C1_amended (url : Str) (t : ParseOptions) (o : FetchOutcome)
    (hns : containsSubstrL ("://".toList) url = false) :
    ((∃ r, GitRepoParser.parse url t o = .ok r) ↔
      (isShorthand url = true ∧ shorthandRepoOk url = true)) ∧
    (∀ r, GitRepoParser.parse url t o = .ok r → r.metadata.provider = .github) := by
  constructor
  · constructor
    · rintro ⟨r, h⟩
      obtain ⟨hs, u, p, hu, hp, hr⟩ := parse_ok_iff.mp h
      rw [schema_no_scheme hns] at hs
      refine ⟨hs, ?_⟩
      rw [expand_no_scheme hns, parseURL_github_prefix (shorthand_all_pathChar hs)] at hu
      injection hu with h2
      subst h2
      obtain ⟨a, b, hsp, ha, hwa, hb, hwb⟩ := isShorthand_destruct hs
      have hurl := splitChar_pair hsp
      have hadot : isDotSeg a = false := wordHyphen_not_dotseg hwa
      have hca : a.all (fun x => !(x == '/')) = true :=
        all_imp (fun c => no_slash_of_wordHyphen) hwa
      have hcb : b.all (fun x => !(x == '/')) = true :=
        all_imp (fun c => no_slash_of_repoChar) hwb
      rw [hurl] at hp
      unfold shorthandRepoOk
      rw [hsp]
      show (!(isDotSeg b) && !(GitRepoParser.stripDotGit b).isEmpty) = true
      by_cases hb1 : b = ".".toList
      · rw [hb1, normalizePath_dot_last hadot hca, extract_single _ ha hca] at hp
        exact absurd hp (by simp)
      · by_cases hb2 : b = "..".toList
        · rw [hb2, normalizePath_dotdot_last hadot hca, extract_root] at hp
          exact absurd hp (by simp)
        · have hbdot : isDotSeg b = false := by
            unfold isDotSeg
            rw [beq_eq_false_iff_ne.mpr hb1, beq_eq_false_iff_ne.mpr hb2]
            rfl
          rw [normalizePath_pair hadot hbdot hca hcb] at hp
          rw [extract_pathname_pair _ ha hb hca hcb] at hp
          by_cases hcond : (GitRepoParser.stripDotGit b).isEmpty = true
          · rw [if_pos hcond] at hp
            exact absurd hp (by simp)
          · have hfalse : (GitRepoParser.stripDotGit b).isEmpty = false := by
              cases hq : (GitRepoParser.stripDotGit b).isEmpty with
              | false => rfl
              | true => exact absurd hq hcond
            rw [hbdot, hfalse]
            rfl
    · rintro ⟨hs, hok⟩
      obtain ⟨a, b, hsp, ha, hwa, hb, hwb⟩ := isShorthand_destruct hs
      have hurl := splitChar_pair hsp
      have hadot : isDotSeg a = false := wordHyphen_not_dotseg hwa
      have hca : a.all (fun x => !(x == '/')) = true :=
        all_imp (fun c => no_slash_of_wordHyphen) hwa
      have hcb : b.all (fun x => !(x == '/')) = true :=
        all_imp (fun c => no_slash_of_repoChar) hwb
      have hok1 : (!(isDotSeg b) && !(GitRepoParser.stripDotGit b).isEmpty) = true := by
        unfold shorthandRepoOk at hok
        rw [hsp] at hok
        exact hok
      simp only [Bool.and_eq_true, Bool.not_eq_true'] at hok1
      have hu : parseURL (GitRepoParser.expandShorthand url) =
          some ⟨"github.com".toList, '/' :: (a ++ ('/' :: b))⟩ := by
        rw [expand_no_scheme hns, parseURL_github_prefix (shorthand_all_pathChar hs), hurl,
          normalizePath_pair hadot hok1.1 hca hcb]
      have hp : GitRepoParser.extractOwnerRepo ⟨"github.com".toList, '/' :: (a ++ ('/' :: b))⟩ =
          some (a, GitRepoParser.stripDotGit b) := by
        rw [extract_pathname_pair _ ha hb hca hcb, hok1.2]
        rfl
      exact ⟨_, parse_ok_iff.mpr
        ⟨by rw [schema_no_scheme hns]; exact hs, _, _, hu, hp, rfl⟩⟩
  · intro r h
    obtain ⟨hs, u, p, hu, hp, hr⟩ := parse_ok_iff.mp h
    rw [schema_no_scheme hns] at hs
    rw [expand_no_scheme hns, parseURL_github_prefix (shorthand_all_pathChar hs)] at hu
    injection hu with h2
    subst h2
    rw [hr]
    show GitRepoParser.detectProvider ("github.com".toList) = .github
    decide

/-- Witness for the amended C1 at the concrete shorthand `user/repo`. -/
theorem claim_C1_witness :
    ((∃ r, GitRepoParser.parse ("user/repo".toList) {} .networkError = .ok r) ↔
      (isShorthand ("user/repo".toList) = true ∧
        shorthandRepoOk ("user/repo".toList) = true)) ∧
    (∀ r, GitRepoParser.parse ("user/repo".toList) {} .networkError = .ok r →
      r.metadata.provider = .github) :=
  claim_C1_amended ("user/repo".toList) {} .networkError (by decide)

/-- Evaluation: shorthands whose second segment is a dot segment match the
regex but fail in `parse`, because URL path normalisation removes the segment
and too few path segments remain. -/
theorem eval_dot_segment_repo :
    isShorthand ("user/.".toList) = true ∧
    GitRepoParser.parse ("user/.".toList) {} .networkError = .error .missingOwnerOrRepo ∧
    isShorthand ("user/..".toList) = true ∧
    GitRepoParser.parse ("user/..".toList) {} .networkError = .error .missingOwnerOrRepo :=
  ⟨by decide, by decide, by decide, by decide⟩

/-- Evaluation: the `.git` strip can produce the repo name `"."`, whose
normalized URL then fails to reparse; this forces the dot-segment hypothesis of
the amended C2. -/
theorem eval_dotgit_strip_dot :
    (GitRepoParser.parse ("https://github.com/user/..git".toList) {}
        .networkError).map (fun r => r.normalizedUrl) =
      .ok ("https://github.com/user/.".toList) ∧
    GitRepoParser.parse ("https://github.com/user/.".toList) {} .networkError =
      .error .missingOwnerOrRepo :=
  ⟨by decide, by decide⟩

/-- Evaluation: a non-special scheme keeps its opaque host's case, so the
normalized URL changes once reparsed under `https`; this forces the
special-scheme hypothesis of the amended C2. -/
theorem eval_opaque_host_case :
    (GitRepoParser.parse ("foo://HOST/a/b".toList) {} .networkError).map
        (fun r => r.normalizedUrl) = .ok ("https://HOST/a/b".toList) ∧
    (GitRepoParser.parse ("https://HOST/a/b".toList) {} .networkError).map
        (fun r => r.normalizedUrl) = .ok ("https://host/a/b".toList) ∧
    GitRepoParser.isSpecialExpand ("foo://HOST/a/b".toList) = false :=
  ⟨by decide, by decide, by decide⟩
